import Mathlib

/-!
Verification of the kPTP peer-routing node: wire codec (kPTP.js),
XOR-metric routing table (RoutingTable.js), and heartbeat liveness
tracking (Heartbeat.js), shallowly embedded over lists of bytes and
explicit state records. JavaScript Buffers are modelled as List Nat
(one Nat per byte); Buffer reads that throw RangeError are modelled
as Option results; Buffer.slice, which clamps instead of throwing,
is modelled by take/drop. Strings carried on the wire (sender names,
the JSON self-description) are modelled by their UTF-8 byte lists,
and a 16-bit identity rendered as 4 hex characters is modelled by
its numeric value (in the routing table) or its two raw bytes (on
the wire), the hex rendering being a bijection up to case.
-/

/-! ## Wire codec (kPTP.js) -/

/-- Protocol version constant, kPTP.js line 1. -/
def kPTP_VERSION : Nat := 18

/-- One peer entry of a kPTP message: 4 IP bytes (the dotted-decimal
components), a port number, and the 2 raw bytes of the 16-bit identity
(the 4-character hex peerID string decoded by Buffer.from(id, hex)). -/
structure PeerInfo where
  ip : List Nat
  port : Nat
  peerID : List Nat
deriving Repr, DecidableEq

/-- encodeIP, kPTP.js lines 22-29: writes the 4 dotted components into a
4-byte buffer; Buffer element assignment coerces modulo 256 and missing
components become 0. -/
def encodeIP (ip : List Nat) : List Nat :=
  (List.range 4).map (fun i => ip.getD i 0 % 256)

/-- encodePort, kPTP.js lines 36-40: writeUInt16BE, which throws
(modelled as none) unless the value fits in 16 bits. -/
def encodePort (port : Nat) : Option (List Nat) :=
  if port < 65536 then some [port / 256, port % 256] else none

/-- encodePeerID, kPTP.js lines 48-50: Buffer.from(peerID, hex); the
4-hex-character identity is modelled directly by its two bytes. -/
def encodePeerID (peerID : List Nat) : List Nat := peerID

/-- encodePeerInfo, kPTP.js lines 83-88: IP bytes, port bytes, identity
bytes concatenated. -/
def encodePeerInfo (peer : PeerInfo) : Option (List Nat) :=
  (encodePort peer.port).map
    (fun portBuf => encodeIP peer.ip ++ portBuf ++ encodePeerID peer.peerID)

/-- createHeader, kPTP.js lines 64-72: version byte, type byte, peer
count byte, 2-byte big-endian sender-name length; writeUInt8 and
writeUInt16BE throw (none) on out-of-range values. -/
def createHeader (messageType numPeers : Nat) (senderName : List Nat) : Option (List Nat) :=
  if messageType < 256 ∧ numPeers < 256 ∧ senderName.length < 65536 then
    some [kPTP_VERSION, messageType, numPeers,
          senderName.length / 256, senderName.length % 256]
  else none

/-- Encoding of all peer entries (peers.map(encodePeerInfo) at kPTP.js
line 104); a throw from any entry aborts the whole encode. -/
def encodePeers : List PeerInfo → Option (List (List Nat))
  | [] => some []
  | p :: ps =>
    match encodePeerInfo p, encodePeers ps with
    | some blk, some rest => some (blk :: rest)
    | _, _ => none

/-- createMessage, kPTP.js lines 99-113: header, then each encoded peer
entry, then the UTF-8 sender name. -/
def createMessage (messageType : Nat) (senderName : List Nat) (peers : List PeerInfo) :
    Option (List Nat) :=
  match createHeader messageType peers.length senderName, encodePeers peers with
  | some header, some peersData => some (header ++ peersData.flatten ++ senderName)
  | _, _ => none

/-- createHelloMessage, kPTP.js lines 133-141: the base type-4 message
with the JSON-serialized self-description appended; the selfInfo object
is modelled by its (nonempty) JSON.stringify UTF-8 bytes. -/
def createHelloMessage (senderName : List Nat) (peers : List PeerInfo) (selfInfo : List Nat) :
    Option (List Nat) :=
  (createMessage 4 senderName peers).map (fun base => base ++ selfInfo)

/-- Buffer.readUInt8: one byte at the offset, RangeError (none) past the
end. -/
def readUInt8 (b : List Nat) (off : Nat) : Option Nat := b.get? off

/-- Buffer.readUInt16BE: big-endian 16-bit read, RangeError (none) if
either byte is past the end. -/
def readUInt16BE (b : List Nat) (off : Nat) : Option Nat :=
  match b.get? off, b.get? (off + 1) with
  | some hi, some lo => some (256 * hi + lo)
  | _, _ => none

/-- Buffer.slice(start, stop): clamps both bounds to the buffer, never
throws. -/
def bufSlice (b : List Nat) (start stop : Nat) : List Nat :=
  (b.take stop).drop start

/-- Result of decodeMessage, kPTP.js lines 229-236: header fields, the
decoded peer entries, the sender-name bytes, and the optional trailing
self-description. The trailing bytes are kept raw: JSON.parse is applied
to them in the source, and JSON.parse inverts JSON.stringify on plain
objects, so equality of the raw bytes models equality of the parsed
object; a parse failure only ever depends on those same bytes. -/
structure DecodedMessage where
  version : Nat
  messageType : Nat
  numPeers : Nat
  senderName : List Nat
  peers : List PeerInfo
  selfInfo : Option (List Nat)
deriving Repr, DecidableEq

/-- Peer-entry loop of decodeMessage, kPTP.js lines 206-215: per entry a
4-byte slice (clamped), a readUInt16BE port (throwing), and a 2-byte
identity slice (clamped); returns the entries and the final offset. -/
def decodePeerList (b : List Nat) : Nat → Nat → Option (List PeerInfo × Nat)
  | 0, off => some ([], off)
  | n + 1, off =>
    match readUInt16BE b (off + 4) with
    | none => none
    | some port =>
      match decodePeerList b n (off + 8) with
      | none => none
      | some (rest, fin) =>
        some ({ ip := bufSlice b off (off + 4), port := port,
                peerID := bufSlice b (off + 6) (off + 8) } :: rest, fin)

/-- decodeMessage, kPTP.js lines 199-237: header reads, the peer loop,
the sender-name slice (clamped), and, whenever bytes remain, the
trailing self-description. -/
def decodeMessage (b : List Nat) : Option DecodedMessage :=
  match readUInt8 b 0, readUInt8 b 1, readUInt8 b 2, readUInt16BE b 3 with
  | some version, some messageType, some numPeers, some senderNameLength =>
    match decodePeerList b numPeers 5 with
    | none => none
    | some (peers, off) =>
      some { version := version, messageType := messageType, numPeers := numPeers,
             senderName := bufSlice b off (off + senderNameLength),
             peers := peers,
             selfInfo :=
               if off + senderNameLength < b.length then
                 some (bufSlice b (off + senderNameLength) b.length)
               else none }
  | _, _, _, _ => none

/-- A peer entry as the encoder is fed by this program: a 4-component
dotted IPv4 address with byte-sized components, a 16-bit port, and a
2-byte identity. -/
def wellFormedPeer (p : PeerInfo) : Prop :=
  p.ip.length = 4 ∧ (∀ x ∈ p.ip, x < 256) ∧ p.port < 65536 ∧ p.peerID.length = 2

instance wellFormedPeerDecidable (p : PeerInfo) : Decidable (wellFormedPeer p) :=
  decidable_of_iff
    (p.ip.length = 4 ∧ (∀ x ∈ p.ip, x < 256) ∧ p.port < 65536 ∧ p.peerID.length = 2) Iff.rfl

/-! ## Routing table (RoutingTable.js, src/unnamed/part_001) -/

/-- A routing-table record, RoutingTable.js: peers carry peerID, ip,
port, senderName and lastSeen. The identity is the 16-bit numeric value
of the 4-hex-character peerID string. -/
structure PeerRecord where
  peerID : Nat
  ip : List Nat
  port : Nat
  senderName : List Nat
  lastSeen : Nat
deriving Repr, DecidableEq

/-- RoutingTable state, constructor lines 24-29: the local identity and
16 k-buckets, each a list of records (capacity 1 in all reachable
states). -/
structure RoutingTable where
  peerID : Nat
  kBuckets : Fin 16 → List PeerRecord

/-- One hex character of an identity rendered as its 4 binary
characters: parseInt(str, 16).toString(2).padStart(4, "0") inside
Singleton.Hex2Bin (the Singleton module at the tail of
src/test_dht.js, lines 222-227). A digit d in 0..15 becomes the 4
bits of d, most-significant first. -/
def hexDigitBits (d : Nat) : List Bool :=
  [d.testBit 3, d.testBit 2, d.testBit 1, d.testBit 0]

/-- Singleton.Hex2Bin, src/test_dht.js lines 222-227: splits the hex
string into characters, renders each as a 4-character binary string,
and joins. The 4-hex-character identity of numeric value n has digit
values n/4096, n/256 mod 16, n/16 mod 16, n mod 16, so its binary
string is the concatenation of their 4-bit renderings, and a binary
character is modelled as a Bool. -/
def hex2bin (n : Nat) : List Bool :=
  ([n / 4096 % 16, n / 256 % 16, n / 16 % 16, n % 16].map hexDigitBits).flatten

/-- Singleton.XORing, src/test_dht.js lines 230-236: character-wise
over the two binary strings, "0" when the characters agree and "1"
otherwise, which on binary characters is Boolean xor. The JS loop runs
over a.length; both arguments here are Hex2Bin outputs of equal length
16, where that coincides with zipWith. -/
def XORing (a b : List Bool) : List Bool :=
  List.zipWith (fun x y => Bool.xor x y) a b

/-- Numeric value of a binary string, most-significant bit first:
models the JavaScript builtin parseInt(s, 2) that RoutingTable.js
applies to XORing results (lines 112-126 and 173-180). -/
def binToNat (bits : List Bool) : Nat :=
  bits.foldl (fun acc b => 2 * acc + (if b then 1 else 0)) 0

/-- XOR distance between two identities as RoutingTable.js computes it
(lines 111-126 and 172-180): the XOR of the binary strings parsed as an
unsigned integer. -/
def peerDistance (localID pid : Nat) : Nat :=
  binToNat (XORing (hex2bin localID) (hex2bin pid))

/-- getBucketIndex, RoutingTable.js lines 138-155: the index of the
first 1 in the XOR of the two binary strings, defaulting to 0 when the
identities are bit-identical (indexOf returns -1). -/
def getBucketIndex (localID pid : Nat) : Nat :=
  match (XORing (hex2bin localID) (hex2bin pid)).findIdx? (fun c => c) with
  | none => 0
  | some i => i

theorem length_hexDigitBits (d : Nat) : (hexDigitBits d).length = 4 := rfl

theorem length_hex2bin (n : Nat) : (hex2bin n).length = 16 := by
  simp [hex2bin, length_hexDigitBits]

theorem length_XORing_hex2bin (a b : Nat) : (XORing (hex2bin a) (hex2bin b)).length = 16 := by
  simp [XORing, length_hex2bin]

theorem getBucketIndex_lt (localID pid : Nat) : getBucketIndex localID pid < 16 := by
  unfold getBucketIndex
  cases h : (XORing (hex2bin localID) (hex2bin pid)).findIdx? (fun c => c) with
  | none => simp
  | some i =>
    simp only []
    have := (List.findIdx?_eq_some_iff_findIdx_eq.mp h).1
    rw [length_XORing_hex2bin] at this
    omega

/-- Bucket selection as pushBucket and removePeer use it: the
getBucketIndex result, which always lies in 0..15. -/
def bucketOf (rt : RoutingTable) (pid : Nat) : Fin 16 :=
  ⟨getBucketIndex rt.peerID pid, getBucketIndex_lt rt.peerID pid⟩

/-- comparePeerDistance, RoutingTable.js lines 165-199: true when the
candidate is strictly closer, or at equal distance strictly more
recently seen. -/
def comparePeerDistance (rt : RoutingTable) (existingPeer newPeer : PeerRecord) : Bool :=
  let distanceExisting := peerDistance rt.peerID existingPeer.peerID
  let distanceNew := peerDistance rt.peerID newPeer.peerID
  if distanceNew < distanceExisting then true
  else if distanceNew = distanceExisting then
    decide (newPeer.lastSeen > existingPeer.lastSeen)
  else false

/-- pushBucket, RoutingTable.js lines 37-78: an empty bucket receives
the record; otherwise the incumbent at slot 0 is replaced exactly when
comparePeerDistance approves. Records here always carry an identity and
a lastSeen value, so the invalid-input guard and the lastSeen default of
lines 39-47 do not fire. -/
def pushBucket (rt : RoutingTable) (peer : PeerRecord) : RoutingTable :=
  let bucketIndex := bucketOf rt peer.peerID
  match rt.kBuckets bucketIndex with
  | [] =>
    { rt with kBuckets := fun i => if i = bucketIndex then [peer] else rt.kBuckets i }
  | existingPeer :: rest =>
    if comparePeerDistance rt existingPeer peer then
      { rt with kBuckets := fun i => if i = bucketIndex then peer :: rest else rt.kBuckets i }
    else rt

/-- removePeer, RoutingTable.js lines 85-98: filters the identity out of
its bucket. -/
def removePeer (rt : RoutingTable) (pid : Nat) : RoutingTable :=
  let bucketIndex := bucketOf rt pid
  { rt with kBuckets := fun i =>
      if i = bucketIndex then (rt.kBuckets i).filter (fun p => p.peerID ≠ pid)
      else rt.kBuckets i }

/-- getAllPeers, Heartbeat.js lines 25-35 (and kBuckets.flat() of
RoutingTable.js line 109): all records in bucket order. -/
def getAllPeers (rt : RoutingTable) : List PeerRecord :=
  ((List.finRange 16).map rt.kBuckets).flatten

/-- hasPeer, RoutingTable.js lines 222-226. -/
def hasPeer (rt : RoutingTable) (pid : Nat) : Bool :=
  (List.finRange 16).any (fun j => (rt.kBuckets j).any (fun p => p.peerID = pid))

/-- Stable insertion of a record into a list sorted ascending by key:
equal keys keep the incoming record behind earlier ones, matching the
stable ascending sort of Array.prototype.sort with the numeric
comparator of RoutingTable.js lines 111-126. -/
def insertPeer (key : PeerRecord → Nat) (p : PeerRecord) : List PeerRecord → List PeerRecord
  | [] => [p]
  | q :: rest => if key p < key q then p :: q :: rest else q :: insertPeer key p rest

/-- Stable ascending sort by key (insertion sort), modelling
Array.prototype.sort with comparator distanceA - distanceB. -/
def sortPeers (key : PeerRecord → Nat) : List PeerRecord → List PeerRecord
  | [] => []
  | p :: rest => insertPeer key p (sortPeers key rest)

/-- getClosestPeers, RoutingTable.js lines 107-129: flattens the
buckets, sorts by XOR distance to THIS peer's identity (the targetID
argument is never used by the comparator), and returns the first
record. -/
def getClosestPeers (rt : RoutingTable) (targetID : Nat) : List PeerRecord :=
  (sortPeers (fun a => peerDistance rt.peerID a.peerID) (getAllPeers rt)).take 1

/-! ## Heartbeat liveness (Heartbeat.js) -/

/-- Combined liveness state: the routing table plus the missedCounts
map of Heartbeat.js line 16, modelled as a partial map from identity to
count (none = no entry, mirroring the undefined / delete states of the
JavaScript object). -/
structure HBState where
  table : RoutingTable
  missed : Nat → Option Nat

/-- Initialize-or-increment of a missed count, Heartbeat.js lines
70-76: an absent entry becomes 1, an existing count is incremented. -/
def nextMissed (m : Option Nat) : Nat :=
  match m with
  | none => 1
  | some c => c + 1

/-- Body of the per-peer work of one heartbeat cycle, Heartbeat.js
lines 57-90: initialize-or-increment the missed count, then, when the
count has reached 3, remove the peer from the routing table and delete
its count entry. Sending the heartbeat message itself is external I/O
with no effect on this state. -/
def cycleStep (st : HBState) (peer : PeerRecord) : HBState :=
  let newCount := nextMissed (st.missed peer.peerID)
  if 3 ≤ newCount then
    { table := removePeer st.table peer.peerID,
      missed := fun x => if x = peer.peerID then none else st.missed x }
  else
    { table := st.table,
      missed := fun x => if x = peer.peerID then some newCount else st.missed x }

/-- One heartbeat cycle, Heartbeat.js lines 53-91: the peers are
enumerated once at the start of the cycle and each is processed in
order. -/
def heartbeatCycle (st : HBState) : HBState :=
  (getAllPeers st.table).foldl cycleStep st

/-- handleHeartbeatResponse, Heartbeat.js lines 102-122: sets the
responding identity's missed count to 0 unconditionally, then stamps
lastSeen := current tick on every record of any bucket whose identity
matches. The now argument models singleton.getTimestamp(), and the
routing table (global.routingTable in the source) is part of the
state. -/
def handleHeartbeatResponse (st : HBState) (pid : Nat) (now : Nat) : HBState :=
  { table :=
      { peerID := st.table.peerID,
        kBuckets := fun j =>
          (st.table.kBuckets j).map
            (fun p => if p.peerID = pid then { p with lastSeen := now } else p) },
    missed := fun x => if x = pid then some 0 else st.missed x }

/-- Bucket well-formedness: capacity one and every record sits in the
bucket its identity maps to. This is the invariant of claim C8 and a
hypothesis for the liveness theorems. -/
def tableWF (rt : RoutingTable) : Prop :=
  ∀ j : Fin 16, (rt.kBuckets j).length ≤ 1 ∧
    ∀ p ∈ rt.kBuckets j, bucketOf rt p.peerID = j

instance tableWFDecidable (rt : RoutingTable) : Decidable (tableWF rt) :=
  decidable_of_iff (∀ j : Fin 16, (rt.kBuckets j).length ≤ 1 ∧
    ∀ p ∈ rt.kBuckets j, bucketOf rt p.peerID = j) Iff.rfl

/-- States of a routing table reachable from a fresh table by pushBucket
and removePeer. -/
inductive Reachable (localID : Nat) : RoutingTable → Prop
  | init : Reachable localID { peerID := localID, kBuckets := fun _ => [] }
  | push (rt : RoutingTable) (p : PeerRecord) :
      Reachable localID rt → Reachable localID (pushBucket rt p)
  | remove (rt : RoutingTable) (pid : Nat) :
      Reachable localID rt → Reachable localID (removePeer rt pid)

/-! ## Wire codec lemmas -/

theorem bufSlice_drop (b : List Nat) (s k : Nat) :
    bufSlice b s (s + k) = (b.drop s).take k := by
  unfold bufSlice
  rw [List.drop_take]
  congr 1
  omega

theorem bufSlice_zero (b : List Nat) (k : Nat) : bufSlice b 0 k = b.take k := by
  simp [bufSlice]

theorem readUInt16BE_drop (b : List Nat) (s k : Nat) :
    readUInt16BE b (s + k) = readUInt16BE (b.drop s) k := by
  unfold readUInt16BE
  rw [List.get?_drop, List.get?_drop]
  have h : s + k + 1 = s + (k + 1) := by omega
  rw [h]

theorem decodePeerList_shift (n : Nat) :
    ∀ (b : List Nat) (off : Nat),
      decodePeerList b n off =
        (decodePeerList (b.drop off) n 0).map (fun r => (r.1, off + r.2)) := by
  induction n with
  | zero => intro b off; simp [decodePeerList]
  | succ m ih =>
    intro b off
    simp only [decodePeerList]
    have h16 : readUInt16BE b (off + 4) = readUInt16BE (b.drop off) (0 + 4) := by
      rw [← readUInt16BE_drop]
    rw [h16]
    cases hport : readUInt16BE (b.drop off) (0 + 4) with
    | none => simp
    | some port =>
      simp only []
      have hrec : decodePeerList b m (off + 8) =
          (decodePeerList (b.drop (off + 8)) m 0).map (fun r => (r.1, off + 8 + r.2)) := ih b (off + 8)
      have hdd : (b.drop off).drop (0 + 8) = b.drop (off + 8) := by
        rw [List.drop_drop]
      have hrec2 := ih (b.drop off) (0 + 8)
      rw [hdd] at hrec2
      rw [hrec, hrec2]
      cases hinner : decodePeerList (b.drop (off + 8)) m 0 with
      | none => simp
      | some r =>
        simp only [Option.map_some']
        have hip : bufSlice b off (off + 4) = bufSlice (b.drop off) 0 (0 + 4) := by
          rw [bufSlice_drop, bufSlice_zero]
        have hpid : bufSlice b (off + 6) (off + 8) = bufSlice (b.drop off) (0 + 6) (0 + 8) := by
          have e1 : off + 8 = (off + 6) + 2 := by omega
          have e2 : (0 : Nat) + 8 = (0 + 6) + 2 := by omega
          rw [e1, e2, bufSlice_drop, bufSlice_drop, List.drop_drop]
        rw [hip, hpid]
        simp
        omega

/-- Byte block that encodePeerInfo produces for a well-formed peer. -/
def encodedBlock (p : PeerInfo) : List Nat :=
  p.ip ++ [p.port / 256, p.port % 256] ++ p.peerID

theorem encodeIP_eq (ip : List Nat) (h4 : ip.length = 4) (hlt : ∀ x ∈ ip, x < 256) :
    encodeIP ip = ip := by
  match ip, h4 with
  | [a, b, c, d], _ =>
    have ha : a % 256 = a := Nat.mod_eq_of_lt (hlt a (by simp))
    have hb : b % 256 = b := Nat.mod_eq_of_lt (hlt b (by simp))
    have hc : c % 256 = c := Nat.mod_eq_of_lt (hlt c (by simp))
    have hd : d % 256 = d := Nat.mod_eq_of_lt (hlt d (by simp))
    have hstep : encodeIP [a, b, c, d] = [a % 256, b % 256, c % 256, d % 256] := rfl
    rw [hstep, ha, hb, hc, hd]

theorem encodePeerInfo_wf (p : PeerInfo) (h : wellFormedPeer p) :
    encodePeerInfo p = some (encodedBlock p) := by
  obtain ⟨h4, hlt, hport, hpid⟩ := h
  unfold encodePeerInfo encodePort encodePeerID encodedBlock
  rw [if_pos hport]
  simp [encodeIP_eq p.ip h4 hlt]

theorem encodePeers_wf (peers : List PeerInfo) (h : ∀ p ∈ peers, wellFormedPeer p) :
    encodePeers peers = some (peers.map encodedBlock) := by
  induction peers with
  | nil => simp [encodePeers]
  | cons p ps ih =>
    have hp := encodePeerInfo_wf p (h p (by simp))
    have hps := ih (fun q hq => h q (by simp [hq]))
    simp [encodePeers, hp, hps]

theorem length_encodedBlock (p : PeerInfo) (h : wellFormedPeer p) :
    (encodedBlock p).length = 8 := by
  obtain ⟨h4, -, -, hpid⟩ := h
  simp [encodedBlock, h4, hpid]

theorem length_flatten_blocks (peers : List PeerInfo) (h : ∀ p ∈ peers, wellFormedPeer p) :
    ((peers.map encodedBlock).flatten).length = 8 * peers.length := by
  induction peers with
  | nil => simp
  | cons p ps ih =>
    simp only [List.map_cons, List.flatten_cons, List.length_append, List.length_cons]
    rw [length_encodedBlock p (h p (by simp)), ih (fun q hq => h q (by simp [hq]))]
    ring

theorem decodePeerList_encoded :
    ∀ (peers : List PeerInfo) (rest : List Nat), (∀ p ∈ peers, wellFormedPeer p) →
      decodePeerList ((peers.map encodedBlock).flatten ++ rest) peers.length 0 =
        some (peers, 8 * peers.length) := by
  intro peers
  induction peers with
  | nil => intro rest h; simp [decodePeerList]
  | cons p ps ih =>
    intro rest h
    obtain ⟨hip4, hiplt, hport, hpid2⟩ := h p (by simp)
    obtain ⟨ip, port, pid⟩ := p
    simp only at hip4 hpid2
    match ip, hip4, pid, hpid2 with
    | [a1, a2, a3, a4], _, [k1, k2], _ =>
      have hbuf : (((⟨[a1, a2, a3, a4], port, [k1, k2]⟩ : PeerInfo) :: ps).map
            encodedBlock).flatten ++ rest =
          a1 :: a2 :: a3 :: a4 :: (port / 256) :: (port % 256) :: k1 :: k2 ::
            ((ps.map encodedBlock).flatten ++ rest) := by
        simp [encodedBlock]
      rw [hbuf]
      simp only [List.length_cons, decodePeerList]
      have h16 : readUInt16BE (a1 :: a2 :: a3 :: a4 :: (port / 256) :: (port % 256) :: k1 :: k2 ::
          ((ps.map encodedBlock).flatten ++ rest)) 4 = some port := by
        show (match (some (port / 256) : Option Nat), (some (port % 256) : Option Nat) with
          | some hi, some lo => some (256 * hi + lo)
          | _, _ => none) = some port
        simp only []
        rw [Nat.div_add_mod port 256]
      rw [h16]
      have hrec : decodePeerList (a1 :: a2 :: a3 :: a4 :: (port / 256) :: (port % 256) :: k1 :: k2 ::
          ((ps.map encodedBlock).flatten ++ rest)) ps.length 8 = some (ps, 8 + 8 * ps.length) := by
        rw [decodePeerList_shift]
        have hdrop : (a1 :: a2 :: a3 :: a4 :: (port / 256) :: (port % 256) :: k1 :: k2 ::
            ((ps.map encodedBlock).flatten ++ rest)).drop 8 =
            (ps.map encodedBlock).flatten ++ rest := rfl
        rw [hdrop, ih rest (fun q hq => h q (by simp [hq]))]
        rfl
      rw [hrec]
      simp only []
      have hslice1 : bufSlice (a1 :: a2 :: a3 :: a4 :: (port / 256) :: (port % 256) :: k1 :: k2 ::
          ((ps.map encodedBlock).flatten ++ rest)) 0 4 = [a1, a2, a3, a4] := rfl
      have hslice2 : bufSlice (a1 :: a2 :: a3 :: a4 :: (port / 256) :: (port % 256) :: k1 :: k2 ::
          ((ps.map encodedBlock).flatten ++ rest)) 6 8 = [k1, k2] := rfl
      rw [hslice1, hslice2]
      have harith : 8 + 8 * ps.length = 8 * (ps.length + 1) := by ring
      rw [harith]

theorem decodeMessage_encoded (mt : Nat) (name : List Nat) (peers : List PeerInfo)
    (extra : List Nat) (hp : ∀ p ∈ peers, wellFormedPeer p) :
    decodeMessage (kPTP_VERSION :: mt :: peers.length :: (name.length / 256) ::
        (name.length % 256) :: ((peers.map encodedBlock).flatten ++ (name ++ extra))) =
      some { version := kPTP_VERSION, messageType := mt, numPeers := peers.length,
             senderName := name, peers := peers,
             selfInfo := if extra = [] then none else some extra } := by
  have hF : ((peers.map encodedBlock).flatten).length = 8 * peers.length :=
    length_flatten_blocks peers hp
  simp only [decodeMessage]
  have h0 : readUInt8 (kPTP_VERSION :: mt :: peers.length :: (name.length / 256) ::
      (name.length % 256) :: ((peers.map encodedBlock).flatten ++ (name ++ extra))) 0 =
      some kPTP_VERSION := rfl
  have h1 : readUInt8 (kPTP_VERSION :: mt :: peers.length :: (name.length / 256) ::
      (name.length % 256) :: ((peers.map encodedBlock).flatten ++ (name ++ extra))) 1 =
      some mt := rfl
  have h2 : readUInt8 (kPTP_VERSION :: mt :: peers.length :: (name.length / 256) ::
      (name.length % 256) :: ((peers.map encodedBlock).flatten ++ (name ++ extra))) 2 =
      some peers.length := rfl
  have h3 : readUInt16BE (kPTP_VERSION :: mt :: peers.length :: (name.length / 256) ::
      (name.length % 256) :: ((peers.map encodedBlock).flatten ++ (name ++ extra))) 3 =
      some name.length := by
    show some (256 * (name.length / 256) + name.length % 256) = some name.length
    rw [Nat.div_add_mod name.length 256]
  simp only [h0, h1, h2, h3]
  have hpl : decodePeerList (kPTP_VERSION :: mt :: peers.length :: (name.length / 256) ::
      (name.length % 256) :: ((peers.map encodedBlock).flatten ++ (name ++ extra)))
      peers.length 5 = some (peers, 5 + 8 * peers.length) := by
    rw [decodePeerList_shift]
    have hdrop : (kPTP_VERSION :: mt :: peers.length :: (name.length / 256) ::
        (name.length % 256) :: ((peers.map encodedBlock).flatten ++ (name ++ extra))).drop 5 =
        (peers.map encodedBlock).flatten ++ (name ++ extra) := rfl
    rw [hdrop, decodePeerList_encoded peers (name ++ extra) hp]
    rfl
  rw [hpl]
  simp only []
  have hdrop58 : (kPTP_VERSION :: mt :: peers.length :: (name.length / 256) ::
      (name.length % 256) :: ((peers.map encodedBlock).flatten ++ (name ++ extra))).drop
      (5 + 8 * peers.length) = name ++ extra := by
    have hsplit : (5 : Nat) + 8 * peers.length = 5 + 8 * peers.length := rfl
    rw [← List.drop_drop]
    have hdrop5 : (kPTP_VERSION :: mt :: peers.length :: (name.length / 256) ::
        (name.length % 256) :: ((peers.map encodedBlock).flatten ++ (name ++ extra))).drop 5 =
        (peers.map encodedBlock).flatten ++ (name ++ extra) := rfl
    rw [hdrop5, ← hF, List.drop_left]
  have hname : bufSlice (kPTP_VERSION :: mt :: peers.length :: (name.length / 256) ::
      (name.length % 256) :: ((peers.map encodedBlock).flatten ++ (name ++ extra)))
      (5 + 8 * peers.length) (5 + 8 * peers.length + name.length) = name := by
    rw [bufSlice_drop, hdrop58]
    exact List.take_left name extra
  have hlen : (kPTP_VERSION :: mt :: peers.length :: (name.length / 256) ::
      (name.length % 256) :: ((peers.map encodedBlock).flatten ++ (name ++ extra))).length =
      5 + 8 * peers.length + name.length + extra.length := by
    simp [List.length_append, hF]
    omega
  rw [hname]
  cases extra with
  | nil =>
    have hcond : ¬ (5 + 8 * peers.length + name.length <
        (kPTP_VERSION :: mt :: peers.length :: (name.length / 256) ::
          (name.length % 256) :: ((peers.map encodedBlock).flatten ++ (name ++ []))).length) := by
      rw [hlen]
      simp
    rw [if_neg hcond]
    simp
  | cons e es =>
    have hcond : 5 + 8 * peers.length + name.length <
        (kPTP_VERSION :: mt :: peers.length :: (name.length / 256) ::
          (name.length % 256) :: ((peers.map encodedBlock).flatten ++ (name ++ e :: es))).length := by
      rw [hlen]
      simp
    rw [if_pos hcond]
    have hslice : bufSlice (kPTP_VERSION :: mt :: peers.length :: (name.length / 256) ::
        (name.length % 256) :: ((peers.map encodedBlock).flatten ++ (name ++ e :: es)))
        (5 + 8 * peers.length + name.length)
        (kPTP_VERSION :: mt :: peers.length :: (name.length / 256) ::
          (name.length % 256) :: ((peers.map encodedBlock).flatten ++ (name ++ e :: es))).length =
        e :: es := by
      rw [hlen]
      have harith : 5 + 8 * peers.length + name.length + (e :: es).length =
          (5 + 8 * peers.length + name.length) + (e :: es).length := rfl
      rw [harith, bufSlice_drop]
      have hdd : (kPTP_VERSION :: mt :: peers.length :: (name.length / 256) ::
          (name.length % 256) :: ((peers.map encodedBlock).flatten ++ (name ++ e :: es))).drop
          (5 + 8 * peers.length + name.length) = e :: es := by
        rw [← List.drop_drop, hdrop58, List.drop_left]
      rw [hdd, List.take_length]
    rw [hslice]
    simp

theorem createMessage_eq (mt : Nat) (name : List Nat) (peers : List PeerInfo)
    (hmt : mt < 256) (hn : peers.length ≤ 255) (hname : name.length ≤ 65535)
    (hp : ∀ p ∈ peers, wellFormedPeer p) :
    createMessage mt name peers =
      some (kPTP_VERSION :: mt :: peers.length :: (name.length / 256) ::
        (name.length % 256) :: ((peers.map encodedBlock).flatten ++ name)) := by
  have hh : createHeader mt peers.length name =
      some [kPTP_VERSION, mt, peers.length, name.length / 256, name.length % 256] := by
    unfold createHeader
    rw [if_pos ⟨hmt, by omega, by omega⟩]
  simp only [createMessage, hh, encodePeers_wf peers hp]
  simp [List.append_assoc]

/-- C1: for every message type, sender display name, and peer list of
length 0..255 (and, for Hello, every attached nonempty self-description),
decoding the encoder's byte sequence yields back every field: version,
type, peer count, each peer entry, sender name, and the optional
self-description when present. -/
theorem decode_encode_roundtrip :
    (∀ (messageType : Nat) (senderName : List Nat) (peers : List PeerInfo),
      messageType < 256 → peers.length ≤ 255 → senderName.length ≤ 65535 →
      (∀ p ∈ peers, wellFormedPeer p) →
      ∃ buf, createMessage messageType senderName peers = some buf ∧
        decodeMessage buf =
          some ⟨kPTP_VERSION, messageType, peers.length, senderName, peers, none⟩) ∧
    (∀ (senderName : List Nat) (peers : List PeerInfo) (selfInfo : List Nat),
      peers.length ≤ 255 → senderName.length ≤ 65535 → selfInfo ≠ [] →
      (∀ p ∈ peers, wellFormedPeer p) →
      ∃ buf, createHelloMessage senderName peers selfInfo = some buf ∧
        decodeMessage buf =
          some ⟨kPTP_VERSION, 4, peers.length, senderName, peers, some selfInfo⟩) := by
  constructor
  · intro mt name peers hmt hn hname hp
    refine ⟨_, createMessage_eq mt name peers hmt hn hname hp, ?_⟩
    have hb : (peers.map encodedBlock).flatten ++ name =
        (peers.map encodedBlock).flatten ++ (name ++ []) := by simp
    rw [hb, decodeMessage_encoded mt name peers [] hp]
    simp
  · intro name peers selfInfo hn hname hself hp
    have hbase := createMessage_eq 4 name peers (by omega) hn hname hp
    refine ⟨(kPTP_VERSION :: 4 :: peers.length :: (name.length / 256) ::
        (name.length % 256) :: ((peers.map encodedBlock).flatten ++ name)) ++ selfInfo, ?_, ?_⟩
    · unfold createHelloMessage
      rw [hbase]
      rfl
    · have hb : (kPTP_VERSION :: 4 :: peers.length :: (name.length / 256) ::
          (name.length % 256) :: ((peers.map encodedBlock).flatten ++ name)) ++ selfInfo =
          kPTP_VERSION :: 4 :: peers.length :: (name.length / 256) ::
          (name.length % 256) :: ((peers.map encodedBlock).flatten ++ (name ++ selfInfo)) := by
        simp [List.append_assoc]
      rw [hb, decodeMessage_encoded 4 name peers selfInfo hp, if_neg hself]

/-- Witness for the round-trip theorem: a concrete Hello message with
one peer entry, a one-byte name, and a nonempty self-description
round-trips, and so does a concrete Welcome message with no peers. -/
theorem decode_encode_roundtrip_witness :
    (∃ buf, createMessage 2 [72] [] = some buf ∧
      decodeMessage buf = some ⟨kPTP_VERSION, 2, 0, [72], [], none⟩) ∧
    (∃ buf, createHelloMessage [65] [⟨[127, 0, 0, 1], 8080, [171, 205]⟩] [123, 125] = some buf ∧
      decodeMessage buf = some ⟨kPTP_VERSION, 4, 1, [65],
        [⟨[127, 0, 0, 1], 8080, [171, 205]⟩], some [123, 125]⟩) := by
  constructor
  · exact decode_encode_roundtrip.1 2 [72] [] (by decide) (by decide) (by decide) (by decide)
  · exact decode_encode_roundtrip.2 [65] [⟨[127, 0, 0, 1], 8080, [171, 205]⟩] [123, 125]
      (by decide) (by decide) (by decide) (by decide)

theorem readUInt16BE_none_iff (b : List Nat) (off : Nat) :
    readUInt16BE b off = none ↔ b.length < off + 2 := by
  unfold readUInt16BE
  cases h1 : b.get? off with
  | none =>
    rw [List.get?_eq_none] at h1
    simp only []
    constructor
    · intro _; omega
    · intro _; trivial
  | some hi =>
    have hlt1 : off < b.length := (List.get?_eq_some.mp h1).1
    cases h2 : b.get? (off + 1) with
    | none =>
      rw [List.get?_eq_none] at h2
      simp only []
      constructor
      · intro _; omega
      · intro _; trivial
    | some lo =>
      have hlt2 : off + 1 < b.length := (List.get?_eq_some.mp h2).1
      simp only []
      constructor
      · intro h; exact absurd h (by simp)
      · intro h; omega

theorem decodePeerList_none_iff :
    ∀ (n : Nat) (b : List Nat) (off : Nat),
      decodePeerList b (n + 1) off = none ↔ b.length < off + 8 * n + 6 := by
  intro n
  induction n with
  | zero =>
    intro b off
    simp only [decodePeerList]
    cases h16 : readUInt16BE b (off + 4) with
    | none =>
      rw [readUInt16BE_none_iff] at h16
      simp only []
      constructor
      · intro _; omega
      · intro _; trivial
    | some port =>
      have := (readUInt16BE_none_iff b (off + 4)).not.mp (by simp [h16])
      simp only []
      constructor
      · intro h; exact absurd h (by simp)
      · intro h; omega
  | succ m ih =>
    intro b off
    have hunfold : decodePeerList b (m + 1 + 1) off =
        (match readUInt16BE b (off + 4) with
          | none => none
          | some port =>
            match decodePeerList b (m + 1) (off + 8) with
            | none => none
            | some (rest, fin) =>
              some ({ ip := bufSlice b off (off + 4), port := port,
                      peerID := bufSlice b (off + 6) (off + 8) } :: rest, fin)) := rfl
    rw [hunfold]
    cases h16 : readUInt16BE b (off + 4) with
    | none =>
      have hlt := (readUInt16BE_none_iff b (off + 4)).mp h16
      simp only []
      constructor
      · intro _; omega
      · intro _; trivial
    | some port =>
      have hge := (readUInt16BE_none_iff b (off + 4)).not.mp (by simp [h16])
      cases hrec : decodePeerList b (m + 1) (off + 8) with
      | none =>
        have hlt := (ih b (off + 8)).mp hrec
        simp only []
        constructor
        · intro _; omega
        · intro _; trivial
      | some r =>
        have hge2 := (ih b (off + 8)).not.mp (by simp [hrec])
        obtain ⟨rest, fin⟩ := r
        simp only []
        constructor
        · intro h; exact absurd h (by simp)
        · intro h; exact (hge2 (by omega)).elim

theorem decodePeerList_zero (b : List Nat) (off : Nat) :
    decodePeerList b 0 off = some ([], off) := rfl

/-- C5 (amended): decodeMessage fails exactly when the buffer is shorter
than the 5-byte header, or when it declares at least one peer entry and
is too short to read the last entry's port field (length below
8*PeerCount+3); a buffer that is merely too short for the declared
sender-name length, or for the identity bytes of the last peer entry,
decodes successfully with truncated fields because Buffer.slice clamps
instead of throwing. -/
theorem decode_malformed_iff (b : List Nat) :
    decodeMessage b = none ↔
      (b.length < 5 ∨ (1 ≤ b.getD 2 0 ∧ b.length < 8 * b.getD 2 0 + 3)) := by
  by_cases hlen : b.length < 5
  · have h3 : readUInt16BE b 3 = none := (readUInt16BE_none_iff b 3).mpr (by omega)
    have hnone : decodeMessage b = none := by
      unfold decodeMessage
      rw [h3]
      cases readUInt8 b 0 <;> cases readUInt8 b 1 <;> cases readUInt8 b 2 <;> rfl
    simp [hnone, hlen]
  · push_neg at hlen
    obtain ⟨v0, hv0⟩ : ∃ v, b.get? 0 = some v := by
      cases h : b.get? 0 with
      | none => rw [List.get?_eq_none] at h; omega
      | some v => exact ⟨v, rfl⟩
    obtain ⟨v1, hv1⟩ : ∃ v, b.get? 1 = some v := by
      cases h : b.get? 1 with
      | none => rw [List.get?_eq_none] at h; omega
      | some v => exact ⟨v, rfl⟩
    obtain ⟨v2, hv2⟩ : ∃ v, b.get? 2 = some v := by
      cases h : b.get? 2 with
      | none => rw [List.get?_eq_none] at h; omega
      | some v => exact ⟨v, rfl⟩
    obtain ⟨v3, hv3⟩ : ∃ v, b.get? 3 = some v := by
      cases h : b.get? 3 with
      | none => rw [List.get?_eq_none] at h; omega
      | some v => exact ⟨v, rfl⟩
    obtain ⟨v4, hv4⟩ : ∃ v, b.get? 4 = some v := by
      cases h : b.get? 4 with
      | none => rw [List.get?_eq_none] at h; omega
      | some v => exact ⟨v, rfl⟩
    have hgetD : b.getD 2 0 = v2 := by
      rw [List.getD_eq_get?, hv2]
      rfl
    unfold decodeMessage readUInt8 readUInt16BE
    rw [hv0, hv1, hv2, hv3, hv4, hgetD]
    simp only []
    cases v2 with
    | zero =>
      rw [decodePeerList_zero]
      simp only []
      constructor
      · intro h; exact absurd h (by simp)
      · intro h
        rcases h with h | ⟨h1, -⟩
        · omega
        · omega
    | succ m =>
      cases hpl : decodePeerList b (m + 1) 5 with
      | none =>
        have hshort := (decodePeerList_none_iff m b 5).mp hpl
        simp only []
        constructor
        · intro _
          right
          exact ⟨by omega, by omega⟩
        · intro _; trivial
      | some r =>
        have hlong := (decodePeerList_none_iff m b 5).not.mp (by simp [hpl])
        push_neg at hlong
        simp only []
        constructor
        · intro h; exact absurd h (by simp)
        · intro h
          rcases h with h | ⟨-, h2⟩
          · omega
          · omega

/-- Counterexample to C5 as stated: this 5-byte buffer declares a
10-byte sender name, so it is 10 bytes shorter than the length implied
by its PeerCount and NameLength fields, yet decodeMessage succeeds
(with an empty truncated name) instead of failing. -/
theorem decode_malformed_counterexample :
    decodeMessage [18, 2, 0, 0, 10] = some ⟨18, 2, 0, [], [], none⟩ ∧
      ([18, 2, 0, 0, 10] : List Nat).length < 5 + 8 * 0 + 10 := by
  constructor
  · rfl
  · decide

/-- C9: decodeMessage never validates or branches on the version byte:
two buffers that differ only in byte 0 either both fail to decode or
decode to messages identical in every field except the reported
version, which is byte 0 itself. -/
theorem decode_version_independent (v1 v2 : Nat) (t : List Nat) :
    (decodeMessage (v1 :: t) = none ∧ decodeMessage (v2 :: t) = none) ∨
    (∃ m1 m2, decodeMessage (v1 :: t) = some m1 ∧ decodeMessage (v2 :: t) = some m2 ∧
      m1.version = v1 ∧ m2.version = v2 ∧ m1.messageType = m2.messageType ∧
      m1.numPeers = m2.numPeers ∧ m1.senderName = m2.senderName ∧
      m1.peers = m2.peers ∧ m1.selfInfo = m2.selfInfo) := by
  simp only [decodeMessage]
  have e1 : readUInt8 (v1 :: t) 0 = some v1 := rfl
  have e2 : readUInt8 (v2 :: t) 0 = some v2 := rfl
  have f1 : readUInt8 (v1 :: t) 1 = t.get? 0 := rfl
  have f2 : readUInt8 (v2 :: t) 1 = t.get? 0 := rfl
  have g1 : readUInt8 (v1 :: t) 2 = t.get? 1 := rfl
  have g2 : readUInt8 (v2 :: t) 2 = t.get? 1 := rfl
  have k1 : readUInt16BE (v1 :: t) 3 = readUInt16BE t 2 := rfl
  have k2 : readUInt16BE (v2 :: t) 3 = readUInt16BE t 2 := rfl
  rw [e1, e2, f1, f2, g1, g2, k1, k2]
  cases ht0 : t.get? 0 with
  | none => exact Or.inl ⟨rfl, rfl⟩
  | some mt =>
  cases ht1 : t.get? 1 with
  | none => exact Or.inl ⟨rfl, rfl⟩
  | some np =>
  cases hL : readUInt16BE t 2 with
  | none => exact Or.inl ⟨rfl, rfl⟩
  | some L =>
  simp only []
  have hp1 : decodePeerList (v1 :: t) np 5 =
      (decodePeerList (t.drop 4) np 0).map (fun r => (r.1, 5 + r.2)) := by
    rw [decodePeerList_shift]
    rfl
  have hp2 : decodePeerList (v2 :: t) np 5 =
      (decodePeerList (t.drop 4) np 0).map (fun r => (r.1, 5 + r.2)) := by
    rw [decodePeerList_shift]
    rfl
  rw [hp1, hp2]
  cases hinner : decodePeerList (t.drop 4) np 0 with
  | none => exact Or.inl ⟨rfl, rfl⟩
  | some r =>
  obtain ⟨ps, o⟩ := r
  simp only [Option.map_some']
  have hslice : ∀ v : Nat, bufSlice (v :: t) (5 + o) (5 + o + L) =
      bufSlice t (4 + o) (4 + o + L) := by
    intro v
    have hs : (5 + o) = (4 + o) + 1 := by omega
    have he : (4 + o) + 1 + L = (4 + o + L) + 1 := by omega
    rw [hs, he]
    rfl
  have hslice2 : ∀ v : Nat, bufSlice (v :: t) (5 + o + L) ((v :: t).length) =
      bufSlice t (4 + o + L) t.length := by
    intro v
    have hlenc : (v :: t).length = t.length + 1 := rfl
    have hs : (5 + o + L) = (4 + o + L) + 1 := by omega
    rw [hlenc, hs]
    rfl
  refine Or.inr ⟨_, _, rfl, rfl, rfl, rfl, rfl, rfl, ?_, rfl, ?_⟩
  · show bufSlice (v1 :: t) (5 + o) (5 + o + L) = bufSlice (v2 :: t) (5 + o) (5 + o + L)
    rw [hslice v1, hslice v2]
  · show (if 5 + o + L < (v1 :: t).length then
        some (bufSlice (v1 :: t) (5 + o + L) ((v1 :: t).length)) else none) =
      (if 5 + o + L < (v2 :: t).length then
        some (bufSlice (v2 :: t) (5 + o + L) ((v2 :: t).length)) else none)
    rw [hslice2 v1, hslice2 v2]
    rfl

/-! ## Routing-table lemmas -/

/-- C7: getBucketIndex is a pure function of the two 16-bit identities
whose result lies in [0,15]; identical identities yield index 0; equal
inputs always yield equal indices. -/
theorem bucket_index_deterministic (a b : Nat) (ha : a < 65536) (hb : b < 65536) :
    getBucketIndex a b ≤ 15 ∧ getBucketIndex a a = 0 ∧
      ∀ x y : Nat, x = a → y = b → getBucketIndex x y = getBucketIndex a b := by
  refine ⟨by have := getBucketIndex_lt a b; omega, ?_, ?_⟩
  · unfold getBucketIndex
    have hx : XORing (hex2bin a) (hex2bin a) =
        List.map (fun x => Bool.xor x x) (hex2bin a) := List.zipWith_same _ _
    have hnone : (XORing (hex2bin a) (hex2bin a)).findIdx? (fun c => c) = none := by
      rw [hx]
      refine List.findIdx?_eq_none_iff.mpr ?_
      intro x hxm
      obtain ⟨y, -, hy⟩ := List.exists_of_mem_map hxm
      rw [← hy]
      simp
    rw [hnone]
  · intro x y hx hy
    rw [hx, hy]

theorem bucket_index_deterministic_witness :
    getBucketIndex 4660 43981 ≤ 15 ∧ getBucketIndex 4660 4660 = 0 :=
  ⟨(bucket_index_deterministic 4660 43981 (by decide) (by decide)).1,
   (bucket_index_deterministic 4660 43981 (by decide) (by decide)).2.1⟩

/-- Table with one bucket replaced; the shape pushBucket produces when
it inserts or replaces. -/
def setBucket (rt : RoutingTable) (j : Fin 16) (l : List PeerRecord) : RoutingTable :=
  { rt with kBuckets := fun i => if i = j then l else rt.kBuckets i }

theorem comparePeerDistance_iff (rt : RoutingTable) (e n : PeerRecord) :
    comparePeerDistance rt e n = true ↔
      (peerDistance rt.peerID n.peerID < peerDistance rt.peerID e.peerID ∨
        (peerDistance rt.peerID n.peerID = peerDistance rt.peerID e.peerID ∧
          e.lastSeen < n.lastSeen)) := by
  unfold comparePeerDistance
  by_cases h1 : peerDistance rt.peerID n.peerID < peerDistance rt.peerID e.peerID
  · simp [h1]
  · by_cases h2 : peerDistance rt.peerID n.peerID = peerDistance rt.peerID e.peerID
    · simp [h1, h2, Nat.lt_iff_add_one_le]
    · simp [h1, h2]

/-- C2: with an incumbent alone in the candidate's bucket, pushBucket
replaces it exactly when the candidate is strictly closer, or equally
close and strictly more recently seen; in every other case, including
equal distance with equal lastSeen, the whole table is unchanged. -/
theorem pushBucket_tie_break (rt : RoutingTable) (inc cand : PeerRecord)
    (hb : rt.kBuckets (bucketOf rt cand.peerID) = [inc]) :
    ((peerDistance rt.peerID cand.peerID < peerDistance rt.peerID inc.peerID ∨
      (peerDistance rt.peerID cand.peerID = peerDistance rt.peerID inc.peerID ∧
        inc.lastSeen < cand.lastSeen)) →
      pushBucket rt cand = setBucket rt (bucketOf rt cand.peerID) [cand]) ∧
    (¬(peerDistance rt.peerID cand.peerID < peerDistance rt.peerID inc.peerID ∨
      (peerDistance rt.peerID cand.peerID = peerDistance rt.peerID inc.peerID ∧
        inc.lastSeen < cand.lastSeen)) →
      pushBucket rt cand = rt) := by
  constructor
  · intro hcond
    have hc : comparePeerDistance rt inc cand = true :=
      (comparePeerDistance_iff rt inc cand).mpr hcond
    simp only [pushBucket]
    rw [hb]
    simp only [hc, if_true]
    rfl
  · intro hcond
    have hc : comparePeerDistance rt inc cand = false := by
      cases hcc : comparePeerDistance rt inc cand with
      | false => rfl
      | true => exact absurd ((comparePeerDistance_iff rt inc cand).mp hcc) hcond
    simp only [pushBucket]
    rw [hb]
    simp only [hc]
    rfl

/-- Concrete routing table for the tie-break witness: local identity 0,
with the record of identity 3 sitting in bucket 14 (the bucket of any
identity whose XOR with 0 first differs at bit position 14). -/
def rtW2 : RoutingTable :=
  ⟨0, fun j => if j = (14 : Fin 16) then [⟨3, [], 0, [], 5⟩] else []⟩

theorem pushBucket_tie_break_witness :
    rtW2.kBuckets (bucketOf rtW2 2) = [⟨3, [], 0, [], 5⟩] ∧
    peerDistance rtW2.peerID 2 < peerDistance rtW2.peerID 3 ∧
    pushBucket rtW2 ⟨2, [], 0, [], 9⟩ = setBucket rtW2 (bucketOf rtW2 2) [⟨2, [], 0, [], 9⟩] :=
  ⟨by decide, by decide,
    (pushBucket_tie_break rtW2 ⟨3, [], 0, [], 5⟩ ⟨2, [], 0, [], 9⟩ (by decide)).1
      (Or.inl (by decide))⟩

theorem tableWF_init (localID : Nat) :
    tableWF { peerID := localID, kBuckets := fun _ => [] } := by
  intro j
  constructor
  · simp
  · intro p hp
    simp at hp

theorem tableWF_pushBucket (rt : RoutingTable) (p : PeerRecord) (h : tableWF rt) :
    tableWF (pushBucket rt p) := by
  simp only [pushBucket]
  split
  next hb =>
    intro j
    by_cases hj : j = bucketOf rt p.peerID
    · subst hj
      simp only [if_pos rfl]
      constructor
      · simp
      · intro q hq
        simp at hq
        subst hq
        rfl
    · simp only [if_neg hj]
      exact h j
  next e rest hb =>
    split
    next hcmp =>
      intro j
      by_cases hj : j = bucketOf rt p.peerID
      · subst hj
        simp only [if_pos rfl]
        constructor
        · have := (h (bucketOf rt p.peerID)).1
          rw [hb] at this
          simp only [List.length_cons, if_true] at this ⊢
          omega
        · intro q hq
          rcases List.mem_cons.mp hq with hq1 | hq2
          · subst hq1
            rfl
          · have hmem : q ∈ rt.kBuckets (bucketOf rt p.peerID) := by
              rw [hb]
              exact List.mem_cons_of_mem e hq2
            exact (h (bucketOf rt p.peerID)).2 q hmem
      · simp only [if_neg hj]
        exact h j
    next hcmp =>
      exact h

theorem tableWF_removePeer (rt : RoutingTable) (pid : Nat) (h : tableWF rt) :
    tableWF (removePeer rt pid) := by
  simp only [removePeer]
  intro j
  by_cases hj : j = bucketOf rt pid
  · subst hj
    simp only [if_pos rfl]
    constructor
    · exact le_trans (List.length_filter_le _ _) (h (bucketOf rt pid)).1
    · intro q hq
      exact (h (bucketOf rt pid)).2 q (List.mem_filter.mp hq).1
  · simp only [if_neg hj]
    exact h j

theorem reachable_wf (localID : Nat) (rt : RoutingTable) (h : Reachable localID rt) :
    tableWF rt := by
  induction h with
  | init => exact tableWF_init localID
  | push rt0 p _ ih => exact tableWF_pushBucket rt0 p ih
  | remove rt0 pid _ ih => exact tableWF_removePeer rt0 pid ih

/-- C8: in every state reachable from a fresh routing table by pushBucket
and removePeer, each of the 16 buckets holds at most one record, and no
identity occupies two distinct buckets simultaneously. -/
theorem bucket_invariant (localID : Nat) (rt : RoutingTable) (h : Reachable localID rt) :
    (∀ j : Fin 16, (rt.kBuckets j).length ≤ 1) ∧
    (∀ (j1 j2 : Fin 16) (p q : PeerRecord), p ∈ rt.kBuckets j1 → q ∈ rt.kBuckets j2 →
      p.peerID = q.peerID → j1 = j2) := by
  have hwf := reachable_wf localID rt h
  constructor
  · intro j
    exact (hwf j).1
  · intro j1 j2 p q hp hq he
    have h1 := (hwf j1).2 p hp
    have h2 := (hwf j2).2 q hq
    rw [← h1, ← h2, he]

theorem bucket_invariant_witness :
    ((pushBucket { peerID := 0, kBuckets := fun _ => [] } ⟨2, [], 0, [], 5⟩).kBuckets
      (14 : Fin 16)).length ≤ 1 :=
  (bucket_invariant 0 _ (Reachable.push _ _ Reachable.init)).1 14

/-- Concrete table for the getClosestPeers divergence: local identity 0,
peers with identities 256 (bucket 7) and 1 (bucket 15). -/
def rtC4 : RoutingTable :=
  ⟨0, fun j => if j = (7 : Fin 16) then [⟨256, [], 0, [], 0⟩]
      else if j = (15 : Fin 16) then [⟨1, [], 0, [], 0⟩] else []⟩

/-- C4 evaluated at a failing input: getClosestPeers sorts by XOR
distance to the LOCAL identity and ignores its targetID argument, so
for target 257 it returns the peer of identity 1 (local distance 1)
even though the peer of identity 256 is strictly closer to the target
(distance 1 versus 256). -/
theorem closest_ignores_target :
    getClosestPeers rtC4 257 = [⟨1, [], 0, [], 0⟩] ∧
    (⟨256, [], 0, [], 0⟩ : PeerRecord) ∈ getAllPeers rtC4 ∧
    peerDistance 257 256 < peerDistance 257 1 := by
  refine ⟨?_, by decide, by decide⟩
  decide

/-! ## Heartbeat lemmas -/

/-- Propositional membership of an identity in some bucket. -/
def containsPid (rt : RoutingTable) (pid : Nat) : Prop :=
  ∃ j : Fin 16, ∃ p ∈ rt.kBuckets j, p.peerID = pid

theorem hasPeer_iff (rt : RoutingTable) (pid : Nat) :
    hasPeer rt pid = true ↔ containsPid rt pid := by
  simp [hasPeer, containsPid, List.any_eq_true, List.mem_finRange]

theorem hasPeer_eq_false_iff (rt : RoutingTable) (pid : Nat) :
    hasPeer rt pid = false ↔ ¬ containsPid rt pid := by
  rw [← hasPeer_iff]
  cases h : hasPeer rt pid <;> simp

theorem containsPid_removePeer_ne (rt : RoutingTable) (pid x : Nat) (hne : x ≠ pid) :
    containsPid (removePeer rt pid) x ↔ containsPid rt x := by
  unfold containsPid
  constructor
  · rintro ⟨j, p, hp, hpx⟩
    simp only [removePeer] at hp
    by_cases hj : j = bucketOf rt pid
    · rw [if_pos hj] at hp
      exact ⟨j, p, hj ▸ (List.mem_filter.mp hp).1, hpx⟩
    · rw [if_neg hj] at hp
      exact ⟨j, p, hp, hpx⟩
  · rintro ⟨j, p, hp, hpx⟩
    refine ⟨j, p, ?_, hpx⟩
    simp only [removePeer]
    by_cases hj : j = bucketOf rt pid
    · rw [if_pos hj]
      refine List.mem_filter.mpr ⟨hj ▸ hp, ?_⟩
      simp only [decide_eq_true_eq]
      rw [hpx]
      exact hne
    · rw [if_neg hj]
      exact hp

theorem containsPid_removePeer_self (rt : RoutingTable) (pid : Nat) (h : tableWF rt) :
    ¬ containsPid (removePeer rt pid) pid := by
  rintro ⟨j, p, hp, hpx⟩
  simp only [removePeer] at hp
  by_cases hj : j = bucketOf rt pid
  · rw [if_pos hj] at hp
    have := (List.mem_filter.mp hp).2
    simp only [decide_eq_true_eq] at this
    exact this hpx
  · rw [if_neg hj] at hp
    have := (h j).2 p hp
    rw [hpx] at this
    exact hj this.symm

theorem cycleStep_peerID (st : HBState) (q : PeerRecord) :
    (cycleStep st q).table.peerID = st.table.peerID := by
  simp only [cycleStep]
  split
  · rfl
  · rfl

theorem cycleStep_wf (st : HBState) (q : PeerRecord) (h : tableWF st.table) :
    tableWF (cycleStep st q).table := by
  simp only [cycleStep]
  split
  · exact tableWF_removePeer st.table q.peerID h
  · exact h

theorem cycleStep_missed_ne (st : HBState) (q : PeerRecord) (x : Nat) (hx : x ≠ q.peerID) :
    (cycleStep st q).missed x = st.missed x := by
  simp only [cycleStep]
  split
  · simp [hx]
  · simp [hx]

theorem cycleStep_contains_ne (st : HBState) (q : PeerRecord) (x : Nat) (hx : x ≠ q.peerID) :
    (containsPid (cycleStep st q).table x ↔ containsPid st.table x) := by
  simp only [cycleStep]
  split
  · exact containsPid_removePeer_ne st.table q.peerID x hx
  · exact Iff.rfl

theorem foldl_cycleStep_ne (pid : Nat) :
    ∀ (l : List PeerRecord) (st : HBState), (∀ q ∈ l, q.peerID ≠ pid) →
      (l.foldl cycleStep st).missed pid = st.missed pid ∧
      (containsPid (l.foldl cycleStep st).table pid ↔ containsPid st.table pid) ∧
      (l.foldl cycleStep st).table.peerID = st.table.peerID := by
  intro l
  induction l with
  | nil => intro st _; exact ⟨rfl, Iff.rfl, rfl⟩
  | cons q l ih =>
    intro st h
    have hq : q.peerID ≠ pid := h q (by simp)
    have hpid : pid ≠ q.peerID := fun he => hq he.symm
    have hrest := ih (cycleStep st q) (fun r hr => h r (by simp [hr]))
    refine ⟨?_, ?_, ?_⟩
    · rw [List.foldl_cons, hrest.1, cycleStep_missed_ne st q pid hpid]
    · rw [List.foldl_cons]
      exact hrest.2.1.trans (cycleStep_contains_ne st q pid hpid)
    · rw [List.foldl_cons, hrest.2.2, cycleStep_peerID]

theorem foldl_cycleStep_wf :
    ∀ (l : List PeerRecord) (st : HBState), tableWF st.table →
      tableWF (l.foldl cycleStep st).table := by
  intro l
  induction l with
  | nil => intro st h; exact h
  | cons q l ih =>
    intro st h
    rw [List.foldl_cons]
    exact ih (cycleStep st q) (cycleStep_wf st q h)

theorem foldl_cycleStep_peerID :
    ∀ (l : List PeerRecord) (st : HBState),
      (l.foldl cycleStep st).table.peerID = st.table.peerID := by
  intro l
  induction l with
  | nil => intro st; rfl
  | cons q l ih =>
    intro st
    rw [List.foldl_cons, ih (cycleStep st q), cycleStep_peerID]

theorem countP_flatten_zero (rt : RoutingTable) (pid : Nat) (h : tableWF rt) :
    ∀ (js : List (Fin 16)), bucketOf rt pid ∉ js →
      ((js.map rt.kBuckets).flatten).countP (fun q => decide (q.peerID = pid)) = 0 := by
  intro js
  induction js with
  | nil => intro _; rfl
  | cons j js ih =>
    intro hnm
    simp only [List.map_cons, List.flatten_cons, List.countP_append]
    have h1 : (rt.kBuckets j).countP (fun q => decide (q.peerID = pid)) = 0 := by
      refine List.countP_eq_zero.mpr ?_
      intro q hq
      simp only [decide_eq_true_eq]
      intro he
      have := (h j).2 q hq
      rw [he] at this
      exact hnm (by simp [← this])
    have h2 := ih (fun hm => hnm (by simp [hm]))
    omega

theorem countP_getAllPeers_le_one (rt : RoutingTable) (pid : Nat) (h : tableWF rt) :
    (getAllPeers rt).countP (fun q => decide (q.peerID = pid)) ≤ 1 := by
  obtain ⟨l1, l2, hsplit⟩ := List.append_of_mem (List.mem_finRange (bucketOf rt pid))
  have hnd := List.nodup_finRange 16
  rw [hsplit] at hnd
  have hnm1 : bucketOf rt pid ∉ l1 := by
    have := List.disjoint_of_nodup_append hnd
    intro hm
    exact this hm (by simp)
  have hnm2 : bucketOf rt pid ∉ l2 := by
    have := (List.nodup_append.mp hnd).2.1
    exact (List.nodup_cons.mp this).1
  unfold getAllPeers
  rw [hsplit]
  simp only [List.map_append, List.map_cons, List.flatten_append, List.flatten_cons,
    List.countP_append]
  have hz1 := countP_flatten_zero rt pid h l1 hnm1
  have hz2 := countP_flatten_zero rt pid h l2 hnm2
  have hb : (rt.kBuckets (bucketOf rt pid)).countP (fun q => decide (q.peerID = pid)) ≤ 1 :=
    le_trans (List.countP_le_length _) (h (bucketOf rt pid)).1
  omega

theorem exists_record_of_hasPeer (rt : RoutingTable) (pid : Nat) (h : hasPeer rt pid = true) :
    ∃ p ∈ getAllPeers rt, p.peerID = pid := by
  obtain ⟨j, p, hp, he⟩ := (hasPeer_iff rt pid).mp h
  refine ⟨p, ?_, he⟩
  unfold getAllPeers
  rw [List.mem_flatten]
  exact ⟨rt.kBuckets j, List.mem_map.mpr ⟨j, List.mem_finRange j, rfl⟩, hp⟩

theorem exists_split_of_countP_le_one {α : Type} (f : α → Bool) :
    ∀ (l : List α), l.countP f ≤ 1 → ∀ a ∈ l, f a = true →
      ∃ l1 b l2, l = l1 ++ b :: l2 ∧ f b = true ∧
        (∀ q ∈ l1, f q = false) ∧ (∀ q ∈ l2, f q = false) := by
  intro l
  induction l with
  | nil => intro _ a ha; simp at ha
  | cons x l ih =>
    intro hc a ha hfa
    cases hfx : f x with
    | true =>
      have hcl : l.countP f = 0 := by
        have h1 : (x :: l).countP f = l.countP f + 1 := by
          rw [List.countP_cons, hfx]
          simp
        omega
      refine ⟨[], x, l, by simp, hfx, by simp, ?_⟩
      intro q hq
      have := List.countP_eq_zero.mp hcl q hq
      cases hfq : f q with
      | false => rfl
      | true => exact absurd hfq this
    | false =>
      have hal : a ∈ l := by
        rcases List.mem_cons.mp ha with h1 | h2
        · subst h1; rw [hfx] at hfa; exact absurd hfa (by simp)
        · exact h2
      have hcl : l.countP f ≤ 1 := by
        have h1 : (x :: l).countP f = l.countP f := by
          rw [List.countP_cons, hfx]
          simp
        omega
      obtain ⟨l1, b, l2, hs, hfb, hl1, hl2⟩ := ih hcl a hal hfa
      refine ⟨x :: l1, b, l2, by simp [hs], hfb, ?_, hl2⟩
      intro q hq
      rcases List.mem_cons.mp hq with h1 | h2
      · subst h1; exact hfx
      · exact hl1 q h2

theorem heartbeatCycle_effect (st : HBState) (pid : Nat)
    (hwf : tableWF st.table) (hmem : hasPeer st.table pid = true) :
    tableWF (heartbeatCycle st).table ∧
    (heartbeatCycle st).table.peerID = st.table.peerID ∧
    (nextMissed (st.missed pid) < 3 →
      hasPeer (heartbeatCycle st).table pid = true ∧
      (heartbeatCycle st).missed pid = some (nextMissed (st.missed pid))) ∧
    (3 ≤ nextMissed (st.missed pid) →
      hasPeer (heartbeatCycle st).table pid = false ∧
      (heartbeatCycle st).missed pid = none) := by
  obtain ⟨p0, hp0mem, hp0id⟩ := exists_record_of_hasPeer st.table pid hmem
  have hcount := countP_getAllPeers_le_one st.table pid hwf
  obtain ⟨l1, r, l2, hs, hfr, hl1, hl2⟩ :=
    exists_split_of_countP_le_one (fun q => decide (q.peerID = pid)) (getAllPeers st.table)
      hcount p0 hp0mem (by simp [hp0id])
  have hrid : r.peerID = pid := by simpa using hfr
  have hl1ne : ∀ q ∈ l1, q.peerID ≠ pid := by
    intro q hq
    simpa using hl1 q hq
  have hl2ne : ∀ q ∈ l2, q.peerID ≠ pid := by
    intro q hq
    simpa using hl2 q hq
  have h1 := foldl_cycleStep_ne pid l1 st hl1ne
  have hwf1 : tableWF (l1.foldl cycleStep st).table := foldl_cycleStep_wf l1 st hwf
  have hfold : heartbeatCycle st = l2.foldl cycleStep (cycleStep (l1.foldl cycleStep st) r) := by
    unfold heartbeatCycle
    rw [hs, List.foldl_append, List.foldl_cons]
  have hkey : nextMissed ((l1.foldl cycleStep st).missed r.peerID) =
      nextMissed (st.missed pid) := by
    rw [hrid, h1.1]
  refine ⟨foldl_cycleStep_wf _ st hwf, foldl_cycleStep_peerID _ st, ?_, ?_⟩
  · intro hc
    have hstep : cycleStep (l1.foldl cycleStep st) r =
        { table := (l1.foldl cycleStep st).table,
          missed := fun x => if x = r.peerID then some (nextMissed (st.missed pid))
            else (l1.foldl cycleStep st).missed x } := by
      simp only [cycleStep, hkey]
      rw [if_neg (by omega)]
    have h2 := foldl_cycleStep_ne pid l2 (cycleStep (l1.foldl cycleStep st) r) hl2ne
    constructor
    · rw [hfold]
      refine (hasPeer_iff _ pid).mpr ?_
      refine h2.2.1.mpr ?_
      rw [hstep]
      exact h1.2.1.mpr ((hasPeer_iff st.table pid).mp hmem)
    · rw [hfold, h2.1, hstep]
      simp [hrid]
  · intro hc
    have hstep : cycleStep (l1.foldl cycleStep st) r =
        { table := removePeer (l1.foldl cycleStep st).table r.peerID,
          missed := fun x => if x = r.peerID then none
            else (l1.foldl cycleStep st).missed x } := by
      simp only [cycleStep, hkey]
      rw [if_pos (by omega)]
    have h2 := foldl_cycleStep_ne pid l2 (cycleStep (l1.foldl cycleStep st) r) hl2ne
    constructor
    · rw [hfold]
      refine (hasPeer_eq_false_iff _ pid).mpr ?_
      intro hcontra
      have hct := h2.2.1.mp hcontra
      rw [hstep] at hct
      rw [hrid] at hct
      exact containsPid_removePeer_self (l1.foldl cycleStep st).table pid hwf1 hct
    · rw [hfold, h2.1, hstep]
      simp [hrid]

theorem response_missed_self (st : HBState) (pid now : Nat) :
    (handleHeartbeatResponse st pid now).missed pid = some 0 := by
  simp [handleHeartbeatResponse]

theorem response_hasPeer (st : HBState) (pid now x : Nat) :
    hasPeer (handleHeartbeatResponse st pid now).table x = hasPeer st.table x := by
  have hfun : ∀ j : Fin 16, ((st.table.kBuckets j).map
      (fun p => if p.peerID = pid then { p with lastSeen := now } else p)).any
      (fun p => p.peerID = x) = (st.table.kBuckets j).any (fun p => p.peerID = x) := by
    intro j
    rw [List.any_map]
    congr 1
    funext p
    by_cases hp : p.peerID = pid
    · simp [Function.comp, hp]
    · simp [Function.comp, hp]
  unfold hasPeer handleHeartbeatResponse
  simp only []
  congr 1
  funext j
  exact hfun j

theorem response_wf (st : HBState) (pid now : Nat) (h : tableWF st.table) :
    tableWF (handleHeartbeatResponse st pid now).table := by
  intro j
  constructor
  · simp only [handleHeartbeatResponse, List.length_map]
    exact (h j).1
  · intro q hq
    simp only [handleHeartbeatResponse] at hq
    obtain ⟨p, hp, hpe⟩ := List.mem_map.mp hq
    have hid : q.peerID = p.peerID := by
      rw [← hpe]
      by_cases hc : p.peerID = pid
      · simp [hc]
      · simp [hc]
    have hbo : ∀ y : Nat,
        bucketOf (handleHeartbeatResponse st pid now).table y = bucketOf st.table y :=
      fun y => rfl
    rw [hbo, hid]
    exact (h j).2 p hp

/-- C3: a peer starting fresh (no missed-count entry, or a 0 entry)
survives the first and second heartbeat cycles with counts 1 and 2, is
removed from both the routing table and the missed map during the third
cycle, and any response arriving before the third cycle resets the count
to 0 so that the next cycle only raises it to 1 with no eviction. -/
theorem eviction_law (st : HBState) (pid : Nat)
    (hwf : tableWF st.table) (hmem : hasPeer st.table pid = true)
    (hfresh : st.missed pid = none ∨ st.missed pid = some 0) :
    hasPeer (heartbeatCycle st).table pid = true ∧
    (heartbeatCycle st).missed pid = some 1 ∧
    hasPeer (heartbeatCycle (heartbeatCycle st)).table pid = true ∧
    (heartbeatCycle (heartbeatCycle st)).missed pid = some 2 ∧
    hasPeer (heartbeatCycle (heartbeatCycle (heartbeatCycle st))).table pid = false ∧
    (heartbeatCycle (heartbeatCycle (heartbeatCycle st))).missed pid = none ∧
    (∀ now : Nat,
      (handleHeartbeatResponse (heartbeatCycle (heartbeatCycle st)) pid now).missed pid =
        some 0 ∧
      hasPeer (heartbeatCycle (handleHeartbeatResponse (heartbeatCycle (heartbeatCycle st))
        pid now)).table pid = true ∧
      (heartbeatCycle (handleHeartbeatResponse (heartbeatCycle (heartbeatCycle st))
        pid now)).missed pid = some 1) := by
  have hnm1 : nextMissed (st.missed pid) = 1 := by
    rcases hfresh with h | h <;> simp [nextMissed, h]
  have e1 := heartbeatCycle_effect st pid hwf hmem
  have hc1 := e1.2.2.1 (by omega)
  have hm1 : (heartbeatCycle st).missed pid = some 1 := by rw [hc1.2, hnm1]
  have e2 := heartbeatCycle_effect (heartbeatCycle st) pid e1.1 hc1.1
  have hnm2 : nextMissed ((heartbeatCycle st).missed pid) = 2 := by
    simp [hm1, nextMissed]
  have hc2 := e2.2.2.1 (by omega)
  have hm2 : (heartbeatCycle (heartbeatCycle st)).missed pid = some 2 := by rw [hc2.2, hnm2]
  have e3 := heartbeatCycle_effect (heartbeatCycle (heartbeatCycle st)) pid e2.1 hc2.1
  have hnm3 : nextMissed ((heartbeatCycle (heartbeatCycle st)).missed pid) = 3 := by
    simp [hm2, nextMissed]
  have hc3 := e3.2.2.2 (by omega)
  refine ⟨hc1.1, hm1, hc2.1, hm2, hc3.1, hc3.2, ?_⟩
  intro now
  have hr0 : (handleHeartbeatResponse (heartbeatCycle (heartbeatCycle st)) pid now).missed
      pid = some 0 := response_missed_self _ _ _
  have hwfr := response_wf (heartbeatCycle (heartbeatCycle st)) pid now e2.1
  have hhr : hasPeer (handleHeartbeatResponse (heartbeatCycle (heartbeatCycle st))
      pid now).table pid = true := by
    rw [response_hasPeer]
    exact hc2.1
  have e4 := heartbeatCycle_effect
    (handleHeartbeatResponse (heartbeatCycle (heartbeatCycle st)) pid now) pid hwfr hhr
  have hnm4 : nextMissed ((handleHeartbeatResponse (heartbeatCycle (heartbeatCycle st))
      pid now).missed pid) = 1 := by
    simp [hr0, nextMissed]
  have hc4 := e4.2.2.1 (by omega)
  exact ⟨hr0, hc4.1, by rw [hc4.2, hnm4]⟩

/-- Concrete liveness state for the eviction witness: local identity 0,
one fresh peer of identity 1 in bucket 15, empty missed map. -/
def stW3 : HBState :=
  ⟨⟨0, fun j => if j = (15 : Fin 16) then [⟨1, [], 0, [], 0⟩] else []⟩, fun _ => none⟩

theorem eviction_law_witness :
    (heartbeatCycle stW3).missed 1 = some 1 ∧
    hasPeer (heartbeatCycle (heartbeatCycle stW3)).table 1 = true ∧
    hasPeer (heartbeatCycle (heartbeatCycle (heartbeatCycle stW3))).table 1 = false ∧
    (heartbeatCycle (heartbeatCycle (heartbeatCycle stW3))).missed 1 = none :=
  ⟨(eviction_law stW3 1 (by decide) (by decide) (Or.inl rfl)).2.1,
   (eviction_law stW3 1 (by decide) (by decide) (Or.inl rfl)).2.2.1,
   (eviction_law stW3 1 (by decide) (by decide) (Or.inl rfl)).2.2.2.2.1,
   (eviction_law stW3 1 (by decide) (by decide) (Or.inl rfl)).2.2.2.2.2.1⟩

/-- C6 (amended): handleHeartbeatResponse unconditionally sets the
responding identity's missed-count entry to 0, creating the entry even
when the identity is not in the routing table; an entry is deleted,
together with the routing-table record, when a heartbeat cycle evicts
the peer at count 3. -/
theorem missed_map_amended :
    (∀ (st : HBState) (pid now : Nat),
      (handleHeartbeatResponse st pid now).missed pid = some 0) ∧
    (∀ (st : HBState) (pid : Nat), tableWF st.table → hasPeer st.table pid = true →
      st.missed pid = some 2 →
      hasPeer (heartbeatCycle st).table pid = false ∧
      (heartbeatCycle st).missed pid = none) := by
  constructor
  · intro st pid now
    exact response_missed_self st pid now
  · intro st pid hwf hmem hm
    have e := heartbeatCycle_effect st pid hwf hmem
    have hn : nextMissed (st.missed pid) = 3 := by simp [hm, nextMissed]
    exact e.2.2.2 (by omega)

/-- Counterexample to C6 as stated: on an empty routing table, a
heartbeat response from the unknown identity 5 creates a missed-count
entry (set to 0) for an identity that is not in any bucket. -/
theorem missed_map_counterexample :
    (handleHeartbeatResponse ⟨⟨0, fun _ => []⟩, fun _ => none⟩ 5 0).missed 5 = some 0 ∧
    hasPeer (handleHeartbeatResponse ⟨⟨0, fun _ => []⟩, fun _ => none⟩ 5 0).table 5 =
      false := by
  constructor
  · rfl
  · decide

/-- Concrete liveness state for the C6 witness: one peer of identity 1
at missed count 2. -/
def stW6 : HBState :=
  ⟨⟨0, fun j => if j = (15 : Fin 16) then [⟨1, [], 0, [], 7⟩] else []⟩,
   fun x => if x = 1 then some 2 else none⟩

theorem missed_map_amended_witness :
    (handleHeartbeatResponse stW6 9 3).missed 9 = some 0 ∧
    hasPeer (heartbeatCycle stW6).table 1 = false ∧
    (heartbeatCycle stW6).missed 1 = none :=
  ⟨missed_map_amended.1 stW6 9 3,
   (missed_map_amended.2 stW6 1 (by decide) (by decide) (by decide)).1,
   (missed_map_amended.2 stW6 1 (by decide) (by decide) (by decide)).2⟩

/-- C10: handleHeartbeatResponse sets the responding identity's missed
count to 0 and leaves every other identity's count alone; in the routing
table it stamps lastSeen := now on exactly the records whose identity
matches, leaving every other field, every other record, every bucket
length, and the local identity unchanged. -/
theorem response_frame (st : HBState) (pid now : Nat) (j : Fin 16) (i : Nat) (p : PeerRecord)
    (hp : (st.table.kBuckets j).get? i = some p) :
    (handleHeartbeatResponse st pid now).missed pid = some 0 ∧
    (∀ x : Nat, x ≠ pid → (handleHeartbeatResponse st pid now).missed x = st.missed x) ∧
    (handleHeartbeatResponse st pid now).table.peerID = st.table.peerID ∧
    (∀ jj : Fin 16, ((handleHeartbeatResponse st pid now).table.kBuckets jj).length =
      (st.table.kBuckets jj).length) ∧
    ((handleHeartbeatResponse st pid now).table.kBuckets j).get? i =
      some (if p.peerID = pid then PeerRecord.mk p.peerID p.ip p.port p.senderName now
        else p) := by
  refine ⟨response_missed_self st pid now, ?_, rfl, ?_, ?_⟩
  · intro x hx
    simp [handleHeartbeatResponse, hx]
  · intro jj
    simp [handleHeartbeatResponse]
  · simp only [handleHeartbeatResponse]
    rw [List.get?_map, hp]
    simp only [Option.map_some']

/-- Concrete liveness state for the C10 witness. -/
def stW10 : HBState :=
  ⟨⟨0, fun j => if j = (15 : Fin 16) then [⟨1, [2], 3, [4], 0⟩] else []⟩, fun _ => none⟩

theorem response_frame_witness :
    (handleHeartbeatResponse stW10 1 42).missed 1 = some 0 ∧
    ((handleHeartbeatResponse stW10 1 42).table.kBuckets (15 : Fin 16)).get? 0 =
      some (PeerRecord.mk 1 [2] 3 [4] 42) :=
  ⟨(response_frame stW10 1 42 15 0 ⟨1, [2], 3, [4], 0⟩ (by decide)).1,
   by
     have h := (response_frame stW10 1 42 15 0 ⟨1, [2], 3, [4], 0⟩ (by decide)).2.2.2.2
     simpa using h⟩

theorem decode_malformed_iff_witness :
    decodeMessage [] = none ↔
      (([] : List Nat).length < 5 ∨
        (1 ≤ ([] : List Nat).getD 2 0 ∧
          ([] : List Nat).length < 8 * ([] : List Nat).getD 2 0 + 3)) :=
  decode_malformed_iff []

theorem decode_version_independent_witness :
    (decodeMessage (3 :: [2, 0, 0, 0]) = none ∧ decodeMessage (7 :: [2, 0, 0, 0]) = none) ∨
    (∃ m1 m2, decodeMessage (3 :: [2, 0, 0, 0]) = some m1 ∧
      decodeMessage (7 :: [2, 0, 0, 0]) = some m2 ∧
      m1.version = 3 ∧ m2.version = 7 ∧ m1.messageType = m2.messageType ∧
      m1.numPeers = m2.numPeers ∧ m1.senderName = m2.senderName ∧
      m1.peers = m2.peers ∧ m1.selfInfo = m2.selfInfo) :=
  decode_version_independent 3 7 [2, 0, 0, 0]
